import Mathlib

/-!
Shallow embedding of the memoization and content-addressed storage core of
the `evening` repository (`src/core/cache/memoize.ts`, `src/core/cache/storage.ts`,
drizzle schema for the `calls` and `content` tables).

Modelling conventions:
* JavaScript values passed to / returned from memoized operations are the
  inductive `JSValue` (JSON-like values; numbers are modelled as integers).
* `Buffer` / byte payloads are `Bytes = List Nat` of byte values; strings are
  converted to bytes codepoint-wise (faithful to UTF-8 for the ASCII data the
  claims exercise).
* The SQLite database (tables `calls`, `content`) and the file system are an
  explicit record `SysState`; each drizzle query is translated to the
  corresponding pure list operation (`select ... .get()` is `List.find?`,
  `update ... where` is a guarded `List.map`, `insert` appends).
* `createHash("sha256")....digest("hex")` is an abstract parameter
  `H : Bytes -> String`; theorems that need collision-freeness take
  `Function.Injective H` as a hypothesis, and witnesses instantiate `H`
  with a concrete injective coding `Hc`.
* Wall-clock readings (`unixepoch()`, `performance.now()` durations) are
  explicit `Nat` parameters.
-/

/-- Byte sequences (the model of Node `Buffer` contents). -/
abbrev Bytes := List Nat

/-- `Buffer.from(string)`: codepoint-per-byte model of UTF-8 (exact on ASCII). -/
def strToBytes (s : String) : Bytes := s.data.map (fun c => c.toNat)

/-- `buffer.toString()`: inverse codepoint decoding (exact on ASCII). -/
def bytesToStr (bs : Bytes) : String := String.mk (bs.map (fun n => Char.ofNat n))

/-- The opening brace character. -/
def lbrace : Char := Char.ofNat 123

/-- The closing brace character. -/
def rbrace : Char := Char.ofNat 125

/-- JSON-like JavaScript values (object fields keep insertion order, as JS
objects do for string keys; numbers are modelled as integers). -/
inductive JSValue where
  | null : JSValue
  | bool (b : Bool) : JSValue
  | num (n : Int) : JSValue
  | str (s : String) : JSValue
  | arr (xs : List JSValue) : JSValue
  | obj (fields : List (String × JSValue)) : JSValue

namespace JSValue

mutual

/-- Structural boolean equality on `JSValue` (nested inductive, so
Lean 4.14 cannot derive `DecidableEq`; we build it by hand). -/
def beq : JSValue → JSValue → Bool
  | .null, .null => true
  | .bool a, .bool b => a == b
  | .num a, .num b => a == b
  | .str a, .str b => a == b
  | .arr xs, .arr ys => beqList xs ys
  | .obj fs, .obj gs => beqFields fs gs
  | _, _ => false

/-- Elementwise `beq` on lists of values. -/
def beqList : List JSValue → List JSValue → Bool
  | [], [] => true
  | x :: xs, y :: ys => beq x y && beqList xs ys
  | _, _ => false

/-- Elementwise `beq` on field lists (keys compared as strings). -/
def beqFields : List (String × JSValue) → List (String × JSValue) → Bool
  | [], [] => true
  | f :: fs, g :: gs => f.1 == g.1 && beq f.2 g.2 && beqFields fs gs
  | _, _ => false

end

mutual

theorem beq_iff : ∀ a b : JSValue, beq a b = true ↔ a = b
  | .null, .null => by simp [beq]
  | .null, .bool _ | .null, .num _ | .null, .str _ | .null, .arr _ | .null, .obj _ =>
      by simp [beq]
  | .bool _, .null | .bool _, .num _ | .bool _, .str _ | .bool _, .arr _ | .bool _, .obj _ =>
      by simp [beq]
  | .num _, .null | .num _, .bool _ | .num _, .str _ | .num _, .arr _ | .num _, .obj _ =>
      by simp [beq]
  | .str _, .null | .str _, .bool _ | .str _, .num _ | .str _, .arr _ | .str _, .obj _ =>
      by simp [beq]
  | .arr _, .null | .arr _, .bool _ | .arr _, .num _ | .arr _, .str _ | .arr _, .obj _ =>
      by simp [beq]
  | .obj _, .null | .obj _, .bool _ | .obj _, .num _ | .obj _, .str _ | .obj _, .arr _ =>
      by simp [beq]
  | .bool a, .bool b => by simp [beq]
  | .num a, .num b => by simp [beq]
  | .str a, .str b => by simp [beq]
  | .arr xs, .arr ys => by
      simp only [beq, beqList_iff xs ys]
      constructor
      · intro h; rw [h]
      · intro h; cases h; rfl
  | .obj fs, .obj gs => by
      simp only [beq, beqFields_iff fs gs]
      constructor
      · intro h; rw [h]
      · intro h; cases h; rfl

theorem beqList_iff : ∀ xs ys : List JSValue, beqList xs ys = true ↔ xs = ys
  | [], [] => by simp [beqList]
  | [], _ :: _ => by simp [beqList]
  | _ :: _, [] => by simp [beqList]
  | x :: xs, y :: ys => by
      simp [beqList, beq_iff x y, beqList_iff xs ys]

theorem beqFields_iff :
    ∀ fs gs : List (String × JSValue), beqFields fs gs = true ↔ fs = gs
  | [], [] => by simp [beqFields]
  | [], _ :: _ => by simp [beqFields]
  | _ :: _, [] => by simp [beqFields]
  | f :: fs, g :: gs => by
      simp only [beqFields, Bool.and_eq_true, beq_iff f.2 g.2, beqFields_iff fs gs,
        beq_iff_eq, List.cons.injEq]
      constructor
      · intro h
        exact ⟨Prod.ext h.1.1 h.1.2, h.2⟩
      · intro h
        exact ⟨⟨by rw [h.1], by rw [h.1]⟩, h.2⟩

end

instance : DecidableEq JSValue :=
  fun a b => decidable_of_iff (beq a b = true) (beq_iff a b)

end JSValue

namespace Json

/-- Escape one character the way `JSON.stringify` does (the escapes relevant
to the modelled payloads). -/
def escChar (c : Char) : String :=
  if c == '"' then "\\\""
  else if c == '\\' then "\\\\"
  else if c == '\n' then "\\n"
  else if c == '\t' then "\\t"
  else if c == '\r' then "\\r"
  else if c == Char.ofNat 8 then "\\b"
  else if c == Char.ofNat 12 then "\\f"
  else String.singleton c

/-- Render a JSON string literal with quotes and escapes. -/
def quoteStr (s : String) : String :=
  "\"" ++ String.join (s.data.map escChar) ++ "\""

mutual

/-- `JSON.stringify` on the `JSValue` model: objects render their fields in
insertion order (no key canonicalization), matching V8. -/
def stringify : JSValue → String
  | .null => "null"
  | .bool true => "true"
  | .bool false => "false"
  | .num i => toString i
  | .str s => quoteStr s
  | .arr xs => "[" ++ stringifyList xs ++ "]"
  | .obj fs => "\x7b" ++ stringifyFields fs ++ "\x7d"

/-- Comma-separated rendering of array elements. -/
def stringifyList : List JSValue → String
  | [] => ""
  | [x] => stringify x
  | x :: y :: xs => stringify x ++ "," ++ stringifyList (y :: xs)

/-- Comma-separated rendering of object fields, in list (insertion) order. -/
def stringifyFields : List (String × JSValue) → String
  | [] => ""
  | [f] => quoteStr f.1 ++ ":" ++ stringify f.2
  | f :: g :: fs => quoteStr f.1 ++ ":" ++ stringify f.2 ++ "," ++ stringifyFields (g :: fs)

end

/-- ASCII decimal digit test. -/
def isDigit (c : Char) : Bool := 48 ≤ c.toNat && c.toNat ≤ 57

/-- ASCII hexadecimal digit test. -/
def isHexDigit (c : Char) : Bool :=
  isDigit c || (97 ≤ c.toNat && c.toNat ≤ 102) || (65 ≤ c.toNat && c.toNat ≤ 70)

/-- Value of one hexadecimal digit. -/
def hexVal (c : Char) : Nat :=
  if isDigit c then c.toNat - 48
  else if 97 ≤ c.toNat then c.toNat - 87
  else c.toNat - 55

/-- Skip JSON whitespace. -/
def skipWs : List Char → List Char
  | c :: cs => if c == ' ' || c == '\n' || c == '\t' || c == '\r' then skipWs cs else c :: cs
  | [] => []

/-- Parse the remainder of a JSON string literal (after the opening quote),
returning its characters and the input after the closing quote. -/
def pStrRest : List Char → Option (List Char × List Char)
  | [] => none
  | '\\' :: 'u' :: a :: b :: c :: d :: cs =>
      if isHexDigit a && isHexDigit b && isHexDigit c && isHexDigit d then
        (pStrRest cs).map (fun p =>
          (Char.ofNat (((hexVal a * 16 + hexVal b) * 16 + hexVal c) * 16 + hexVal d) :: p.1,
           p.2))
      else none
  | '\\' :: e :: cs =>
      let ch : Option Char :=
        if e == '"' then some '"'
        else if e == '\\' then some '\\'
        else if e == '/' then some '/'
        else if e == 'n' then some '\n'
        else if e == 't' then some '\t'
        else if e == 'r' then some '\r'
        else if e == 'b' then some (Char.ofNat 8)
        else if e == 'f' then some (Char.ofNat 12)
        else none
      match ch with
      | none => none
      | some c => (pStrRest cs).map (fun p => (c :: p.1, p.2))
  | c :: cs =>
      if c == '"' then some ([], cs)
      else (pStrRest cs).map (fun p => (c :: p.1, p.2))

/-- Take a maximal run of decimal digits. -/
def takeDigits : List Char → List Char × List Char
  | [] => ([], [])
  | c :: cs =>
      if isDigit c then
        let p := takeDigits cs
        (c :: p.1, p.2)
      else ([], c :: cs)

/-- Numeric value of a digit run. -/
def natFromDigits (ds : List Char) : Nat :=
  ds.foldl (fun a c => a * 10 + (c.toNat - 48)) 0

mutual

/-- Fuel-indexed JSON value parser (the model of `JSON.parse`; numbers are
restricted to integers, which covers every payload the claims exercise). -/
def pVal : Nat → List Char → Option (JSValue × List Char)
  | 0, _ => none
  | fuel + 1, cs0 =>
    match skipWs cs0 with
    | [] => none
    | c :: cs =>
      if c == 'n' then
        match cs with
        | 'u' :: 'l' :: 'l' :: r => some (.null, r)
        | _ => none
      else if c == 't' then
        match cs with
        | 'r' :: 'u' :: 'e' :: r => some (.bool true, r)
        | _ => none
      else if c == 'f' then
        match cs with
        | 'a' :: 'l' :: 's' :: 'e' :: r => some (.bool false, r)
        | _ => none
      else if c == '"' then
        (pStrRest cs).map (fun p => (.str (String.mk p.1), p.2))
      else if c == '[' then
        match skipWs cs with
        | [] => none
        | c2 :: r2 =>
          if c2 == ']' then some (.arr [], r2)
          else (pItems fuel (c2 :: r2)).map (fun p => (.arr p.1, p.2))
      else if c == lbrace then
        match skipWs cs with
        | [] => none
        | c2 :: r2 =>
          if c2 == rbrace then some (.obj [], r2)
          else (pFields fuel (c2 :: r2)).map (fun p => (.obj p.1, p.2))
      else if c == '-' then
        match cs with
        | [] => none
        | d :: r =>
          if isDigit d then
            let p := takeDigits (d :: r)
            some (.num (-(Int.ofNat (natFromDigits p.1))), p.2)
          else none
      else if isDigit c then
        let p := takeDigits (c :: cs)
        some (.num (Int.ofNat (natFromDigits p.1)), p.2)
      else none

/-- Parse one or more comma-separated array items up to the closing bracket. -/
def pItems : Nat → List Char → Option (List JSValue × List Char)
  | 0, _ => none
  | fuel + 1, cs =>
    match pVal fuel cs with
    | none => none
    | some (v, r) =>
      match skipWs r with
      | [] => none
      | c :: r2 =>
        if c == ',' then (pItems fuel r2).map (fun p => (v :: p.1, p.2))
        else if c == ']' then some ([v], r2)
        else none

/-- Parse one or more comma-separated object fields up to the closing brace. -/
def pFields : Nat → List Char → Option (List (String × JSValue) × List Char)
  | 0, _ => none
  | fuel + 1, cs =>
    match skipWs cs with
    | [] => none
    | c :: r =>
      if c == '"' then
        match pStrRest r with
        | none => none
        | some (key, r2) =>
          match skipWs r2 with
          | [] => none
          | c2 :: r3 =>
            if c2 == ':' then
              match pVal fuel r3 with
              | none => none
              | some (v, r4) =>
                match skipWs r4 with
                | [] => none
                | c3 :: r5 =>
                  if c3 == ',' then
                    (pFields fuel r5).map (fun p => ((String.mk key, v) :: p.1, p.2))
                  else if c3 == rbrace then some ([(String.mk key, v)], r5)
                  else none
            else none
      else none

end

/-- `JSON.parse` on the model: `none` is a thrown `SyntaxError`.  The fuel
bound exceeds any possible nesting/iteration count for the input length. -/
def parse (s : String) : Option JSValue :=
  match pVal (2 * s.length + 4) s.data with
  | some (v, rest) => if (skipWs rest).isEmpty then some v else none
  | none => none

end Json

/-! ## The `unknown` values crossing the memoization boundary

`memoize` handles three shapes of JS value: `Buffer`/`ArrayBuffer`, `string`,
and everything else (JSON-serializable structures). -/

/-- A JavaScript value as seen by `serializeData` / `inferMimeType`:
a byte buffer, a string, or any other (structured) value. -/
inductive JSData where
  | buffer (bs : Bytes) : JSData
  | str (s : String) : JSData
  | value (v : JSValue) : JSData
deriving DecidableEq

/-- What `saveContent` accepts: `Buffer | string`. -/
inductive ContentData where
  | buf (bs : Bytes) : ContentData
  | str (s : String) : ContentData
deriving DecidableEq

/-- The byte content of a `Buffer | string` payload
(`typeof content === "string" ? Buffer.from(content) : content`). -/
def ContentData.toBytes : ContentData → Bytes
  | .buf bs => bs
  | .str s => strToBytes s

/-- `serializeData` from `memoize.ts`: buffers pass through, strings pass
through, anything else is `JSON.stringify`-ed. -/
def serializeData : JSData → ContentData
  | .buffer bs => .buf bs
  | .str s => .str s
  | .value v => .str (Json.stringify v)

/-- `inferMimeType` from `memoize.ts`: buffers are octet-stream; strings are
JSON if `JSON.parse` succeeds, else plain text; everything else is JSON. -/
def inferMimeType : JSData → String
  | .buffer _ => "application/octet-stream"
  | .str s => if (Json.parse s).isSome then "application/json" else "text/plain"
  | .value _ => "application/json"

/-! ## Database and filesystem state

One row per drizzle schema column (`calls` and `content` tables from the
migration in the repository), plus the `data/` file tree as an association
list from full path to bytes. -/

/-- A row of the `content` table. -/
structure ContentRow where
  hash : String
  filePath : String
  sizeBytes : Nat
  mimeType : String
  referenceCount : Nat
deriving DecidableEq

/-- A row of the `calls` table. -/
structure CallRow where
  argsHash : String
  functionName : String
  argsJson : String
  contentHash : String
  createdAt : Nat
  lastAccessed : Nat
  fetchDurationMs : Nat
deriving DecidableEq

/-- The shared mutable state: both tables and the file tree. -/
structure SysState where
  contentRows : List ContentRow
  callRows : List CallRow
  files : List (String × Bytes)
deriving DecidableEq

/-- `select().from(t).where(eq(key, v)).get()` on the `content` table. -/
def findContent (rows : List ContentRow) (h : String) : Option ContentRow :=
  rows.find? (fun r => r.hash == h)

/-- `select().from(t).where(eq(key, v)).get()` on the `calls` table. -/
def findCall (rows : List CallRow) (k : String) : Option CallRow :=
  rows.find? (fun r => r.argsHash == k)

/-- Read a file's bytes, `none` when the path does not exist. -/
def lookupFile (files : List (String × Bytes)) (path : String) : Option Bytes :=
  (files.find? (fun e => e.1 == path)).map (fun e => e.2)

/-- `Bun.write(path, bytes)`: overwrite an existing path or create it. -/
def writeFile (files : List (String × Bytes)) (path : String) (bs : Bytes) :
    List (String × Bytes) :=
  if files.any (fun e => e.1 == path) then
    files.map (fun e => if e.1 == path then (path, bs) else e)
  else files ++ [(path, bs)]

/-! ## Content Store (`storage.ts`) -/

/-- `hashContent` from `storage.ts`, with the SHA-256 hex digest abstracted
as `H`. -/
def hashContent (H : Bytes → String) (content : ContentData) : String :=
  H content.toBytes

/-- `getExtensionFromMimeType` from `storage.ts`: static MIME → extension
map with `bin` fallback. -/
def getExtensionFromMimeType (mimeType : String) : String :=
  if mimeType == "application/json" then "json"
  else if mimeType == "text/html" then "html"
  else if mimeType == "text/plain" then "txt"
  else if mimeType == "image/jpeg" then "jpg"
  else if mimeType == "image/png" then "png"
  else if mimeType == "image/gif" then "gif"
  else if mimeType == "image/webp" then "webp"
  else if mimeType == "video/mp4" then "mp4"
  else if mimeType == "video/webm" then "webm"
  else "bin"

/-- `saveContent` from `storage.ts`.  Returns the content hash and the new
state.  (`ensureScrapedDir` is directory creation only and has no
observable effect in the model.) -/
def saveContent (H : Bytes → String) (contentData : ContentData) (mimeType : String)
    (st : SysState) : String × SysState :=
  let buffer := contentData.toBytes
  let hash := H buffer
  let ext := getExtensionFromMimeType mimeType
  let filePath := "scraped/" ++ hash ++ "." ++ ext
  let fullPath := "./data/" ++ filePath
  match findContent st.contentRows hash with
  | some _ =>
      (hash,
       { st with
          contentRows := st.contentRows.map (fun r =>
            if r.hash == hash then { r with referenceCount := r.referenceCount + 1 }
            else r) })
  | none =>
      (hash,
       { st with
          files := writeFile st.files fullPath buffer,
          contentRows := st.contentRows ++
            [{ hash := hash, filePath := filePath, sizeBytes := buffer.length,
               mimeType := mimeType, referenceCount := 1 }] })

/-- The two failure conditions of `loadContent`. -/
inductive LoadError where
  | notFound (hash : String) : LoadError
  | missing (path : String) : LoadError
deriving DecidableEq

/-- `loadContent` from `storage.ts`: missing record and missing file are
hard errors. -/
def loadContent (st : SysState) (hash : String) : Except LoadError Bytes :=
  match findContent st.contentRows hash with
  | none => .error (.notFound hash)
  | some record =>
      let fullPath := "./data/" ++ record.filePath
      match lookupFile st.files fullPath with
      | none => .error (.missing fullPath)
      | some bs => .ok bs

/-- `getContentInfo` from `storage.ts`. -/
def getContentInfo (st : SysState) (hash : String) : Option ContentRow :=
  findContent st.contentRows hash

/-! ## Memoization Interceptor (`memoize.ts`) -/

/-- The `MemoizeOptions` interface. -/
structure MemoizeOptions where
  provider : Option String := none
  ignoreCache : Bool := false

/-- `hashArgs` from `memoize.ts`:
hash of `functionName ++ ":" ++ JSON.stringify(args)`. -/
def hashArgs (H : Bytes → String) (functionName : String) (args : List JSValue) :
    String :=
  H (strToBytes (functionName ++ ":" ++ Json.stringify (.arr args)))

/-- `String.endsWith`, restated over the character list so that the kernel
can evaluate it (`String.endsWith` itself is compiled by well-founded
recursion and does not reduce inside `decide`). -/
def strEndsWith (s suffix : String) : Bool := suffix.data.isSuffixOf s.data

/-- Failures observable from a memoized call. -/
inductive MemoError where
  | opFailed (msg : String) : MemoError
  | loadFailed (e : LoadError) : MemoError
  | badStoredJson : MemoError
deriving DecidableEq

/-- The `functionName` the decorator builds:
`options.provider || "unknown"` dot the decorated method's name. -/
def memoFunctionName (options : MemoizeOptions) (propertyKey : String) : String :=
  (options.provider.getD "unknown") ++ "." ++ propertyKey

/-- The fingerprint of one invocation (`argsHash` in `memoize.ts`). -/
def memoKey (H : Bytes → String) (options : MemoizeOptions) (propertyKey : String)
    (args : List JSValue) : String :=
  hashArgs H (memoFunctionName options propertyKey) args

/-- One invocation of the method produced by the `memoize` decorator
(`descriptor.value` in `memoize.ts`).

Inputs beyond the wrapped method and its arguments: `now` is the value the
store's `unixepoch()` returns during this call, and `fetchDuration` the
rounded `performance.now()` difference measured around the operation.

Returns the call's outcome, the post-call state, and whether the wrapped
`originalMethod` was invoked. -/
def memoizedCall (H : Bytes → String) (options : MemoizeOptions) (propertyKey : String)
    (originalMethod : List JSValue → Except String JSData)
    (args : List JSValue) (now fetchDuration : Nat) (st : SysState) :
    Except MemoError JSData × SysState × Bool :=
  let functionName := memoFunctionName options propertyKey
  let argsHash := hashArgs H functionName args
  let argsJson := Json.stringify (.arr args)
  let cached := if options.ignoreCache then none else findCall st.callRows argsHash
  match cached with
  | some cached =>
      let st1 : SysState :=
        { st with
            callRows := st.callRows.map (fun r =>
              if r.argsHash == argsHash then { r with lastAccessed := now } else r) }
      match loadContent st1 cached.contentHash with
      | .error e => (.error (.loadFailed e), st1, false)
      | .ok contentBuffer =>
          if strEndsWith cached.contentHash ".json" then
            match Json.parse (bytesToStr contentBuffer) with
            | some v => (.ok (.value v), st1, false)
            | none => (.error .badStoredJson, st1, false)
          else (.ok (.buffer contentBuffer), st1, false)
  | none =>
      match originalMethod args with
      | .error e => (.error (.opFailed e), st, true)
      | .ok result =>
          let serialized := serializeData result
          let mimeType := inferMimeType result
          let saved := saveContent H serialized mimeType st
          let contentHash := saved.1
          let st2 := saved.2
          let st3 : SysState :=
            if st2.callRows.any (fun r => r.argsHash == argsHash) then
              { st2 with
                  callRows := st2.callRows.map (fun r =>
                    if r.argsHash == argsHash then
                      { r with contentHash := contentHash, lastAccessed := now,
                               fetchDurationMs := fetchDuration }
                    else r) }
            else
              { st2 with
                  callRows := st2.callRows ++
                    [{ argsHash := argsHash, functionName := functionName,
                       argsJson := argsJson, contentHash := contentHash,
                       createdAt := now, lastAccessed := now,
                       fetchDurationMs := fetchDuration }] }
          (.ok result, st3, true)

/-! ## Infrastructure for the verification

Equality on call outcomes, and a concrete injective byte hash used by the
witnesses (the role SHA-256 plays in the source, under the standard
no-collision reading of content addressing). -/

instance {ε α : Type} [DecidableEq ε] [DecidableEq α] : DecidableEq (Except ε α)
  | .ok a, .ok b =>
      if h : a = b then isTrue (by rw [h])
      else isFalse (by intro c; cases c; exact h rfl)
  | .error a, .error b =>
      if h : a = b then isTrue (by rw [h])
      else isFalse (by intro c; cases c; exact h rfl)
  | .ok _, .error _ => isFalse (by intro c; cases c)
  | .error _, .ok _ => isFalse (by intro c; cases c)

/-- Hexadecimal digit as one of the letters from codepoint 97 on. -/
def hexDigit (d : Nat) : Char := Char.ofNat (97 + d)

/-- Fuel-bounded little-endian base-16 digit sequence (structural recursion
so that the kernel can evaluate it inside `decide`). -/
def hexAux : Nat → Nat → List Char
  | 0, _ => []
  | fuel + 1, n => if n < 16 then [hexDigit n] else hexDigit (n % 16) :: hexAux fuel (n / 16)

/-- Little-endian base-16 digits of `n` over the letter alphabet. -/
def hexLE (n : Nat) : List Char := hexAux (n + 1) n

/-- Digits of each byte followed by a `q` separator (a prefix-free code). -/
def hexCat : Bytes → List Char
  | [] => []
  | b :: bs => hexLE b ++ 'q' :: hexCat bs

/-- A concrete injective `Bytes → String` digest standing in for SHA-256 in
witnesses.  Its output alphabet contains no dot, like a hex digest. -/
def Hc (bs : Bytes) : String := String.mk (hexCat bs)

theorem hexAux_fuel_irrel :
    ∀ f1 : Nat, ∀ n : Nat, n < f1 → ∀ f2 : Nat, n < f2 → hexAux f1 n = hexAux f2 n := by
  intro f1
  induction f1 with
  | zero => intro n h; omega
  | succ f ih =>
    intro n hn f2 hf2
    cases f2 with
    | zero => omega
    | succ f2' =>
      simp only [hexAux]
      by_cases h16 : n < 16
      · simp [h16]
      · simp only [h16, if_false]
        have hlt : n / 16 < f := by
          have h0 : n / 16 < n := Nat.div_lt_self (by omega) (by omega)
          omega
        have hlt2 : n / 16 < f2' := by
          have h0 : n / 16 < n := Nat.div_lt_self (by omega) (by omega)
          omega
        rw [ih (n / 16) hlt f2' hlt2]

theorem hexLE_lt {n : Nat} (h : n < 16) : hexLE n = [hexDigit n] := by
  simp [hexLE, hexAux, h]

theorem hexLE_ge {n : Nat} (h : ¬ n < 16) :
    hexLE n = hexDigit (n % 16) :: hexLE (n / 16) := by
  simp only [hexLE, hexAux, h, if_false]
  congr 1
  have hlt : n / 16 < n := Nat.div_lt_self (by omega) (by omega)
  exact hexAux_fuel_irrel n (n / 16) hlt (n / 16 + 1) (by omega)

theorem hexDigit_inj (a b : Nat) (ha : a < 16) (hb : b < 16)
    (h : hexDigit a = hexDigit b) : a = b := by
  revert h
  interval_cases a <;> interval_cases b <;> decide

theorem hexDigit_ne_q (a : Nat) (ha : a < 16) : hexDigit a ≠ 'q' := by
  interval_cases a <;> decide

theorem hexLE_shape (m : Nat) : ∃ d rest, hexLE m = hexDigit d :: rest ∧ d < 16 := by
  by_cases h : m < 16
  · exact ⟨m, [], by rw [hexLE_lt h], h⟩
  · exact ⟨m % 16, hexLE (m / 16), by rw [hexLE_ge h], by omega⟩

theorem hexLE_sep_inj :
    ∀ a b (x y : List Char), hexLE a ++ 'q' :: x = hexLE b ++ 'q' :: y → a = b ∧ x = y := by
  intro a
  induction a using Nat.strong_induction_on with
  | _ a ih =>
    intro b x y h
    by_cases ha : a < 16
    · by_cases hb : b < 16
      · rw [hexLE_lt ha, hexLE_lt hb] at h
        simp only [List.cons_append, List.nil_append, List.cons.injEq] at h
        exact ⟨hexDigit_inj a b ha hb h.1, h.2.2⟩
      · rw [hexLE_lt ha, hexLE_ge hb] at h
        obtain ⟨d, rest, hsh, hd⟩ := hexLE_shape (b / 16)
        rw [hsh] at h
        simp only [List.cons_append, List.nil_append, List.cons.injEq] at h
        exact absurd h.2.1.symm (hexDigit_ne_q d hd)
    · by_cases hb : b < 16
      · rw [hexLE_ge ha, hexLE_lt hb] at h
        obtain ⟨d, rest, hsh, hd⟩ := hexLE_shape (a / 16)
        rw [hsh] at h
        simp only [List.cons_append, List.nil_append, List.cons.injEq] at h
        exact absurd h.2.1 (hexDigit_ne_q d hd)
      · rw [hexLE_ge ha, hexLE_ge hb] at h
        simp only [List.cons_append, List.cons.injEq] at h
        have hrec := ih (a / 16) (Nat.div_lt_self (by omega) (by omega)) (b / 16) x y h.2
        have hmod : a % 16 = b % 16 := hexDigit_inj _ _ (by omega) (by omega) h.1
        refine ⟨?_, hrec.2⟩
        have hdiv : a / 16 = b / 16 := hrec.1
        omega

theorem hexLE_ne_nil (n : Nat) : hexLE n ≠ [] := by
  obtain ⟨d, rest, hsh, _⟩ := hexLE_shape n
  rw [hsh]
  simp

theorem hexCat_inj : Function.Injective hexCat := by
  intro as
  induction as with
  | nil =>
    intro bs h
    cases bs with
    | nil => rfl
    | cons b bs' =>
      exfalso
      simp only [hexCat] at h
      have h2 := List.append_eq_nil.mp h.symm
      simp at h2
  | cons a as' ih =>
    intro bs h
    cases bs with
    | nil =>
      exfalso
      simp only [hexCat] at h
      have h2 := List.append_eq_nil.mp h
      simp at h2
    | cons b bs' =>
      simp only [hexCat] at h
      have h2 := hexLE_sep_inj a b (hexCat as') (hexCat bs') h
      rw [h2.1, ih h2.2]

theorem Hc_inj : Function.Injective Hc := by
  intro a b h
  exact hexCat_inj (congrArg String.data h)

theorem char_toNat_inj : Function.Injective Char.toNat := by
  intro c d h
  have h2 : Char.ofNat c.toNat = Char.ofNat d.toNat := by rw [h]
  rwa [Char.ofNat_toNat, Char.ofNat_toNat] at h2

theorem strToBytes_inj : Function.Injective strToBytes := by
  intro s t h
  have hd : s.data = t.data := List.map_injective_iff.mpr char_toNat_inj h
  cases s; cases t
  exact congrArg String.mk (by simpa using hd)

/-- The empty system state (fresh database, empty `data/` tree). -/
def SysState.empty : SysState := ⟨[], [], []⟩

/-- Well-formedness maintained by the primary keys: at most one `content`
row per hash and one `calls` row per fingerprint. -/
def wfState (st : SysState) : Prop :=
  (st.contentRows.map (fun r => r.hash)).Nodup ∧
  (st.callRows.map (fun r => r.argsHash)).Nodup

instance (st : SysState) : Decidable (wfState st) := by
  unfold wfState; infer_instance

/-- One `content` row's backing file is present and its bytes hash back to
the row's `hash` under `H`. -/
def rowFileOk (H : Bytes → String) (files : List (String × Bytes)) (r : ContentRow) :
    Bool :=
  match lookupFile files ("./data/" ++ r.filePath) with
  | some bs => H bs == r.hash
  | none => false

/-- The content-addressing invariant of the store (spec §3): every `content`
row has its backing file present, and the file's bytes hash to the row's
`hash` under `H`. -/
def contentOk (H : Bytes → String) (st : SysState) : Prop :=
  ∀ r ∈ st.contentRows, rowFileOk H st.files r = true

instance (H : Bytes → String) (st : SysState) : Decidable (contentOk H st) := by
  unfold contentOk; infer_instance

/-! ## Bridging lemmas about the list-level database operations -/

theorem findContent_none_iff (rows : List ContentRow) (h : String) :
    findContent rows h = none ↔ ∀ r ∈ rows, r.hash ≠ h := by
  unfold findContent
  rw [List.find?_eq_none]
  constructor
  · intro hall r hr
    have := hall r hr
    simpa using this
  · intro hall r hr
    have := hall r hr
    simpa using this

theorem findCall_none_iff (rows : List CallRow) (k : String) :
    findCall rows k = none ↔ ∀ r ∈ rows, r.argsHash ≠ k := by
  unfold findCall
  rw [List.find?_eq_none]
  constructor
  · intro hall r hr
    have := hall r hr
    simpa using this
  · intro hall r hr
    have := hall r hr
    simpa using this

theorem callAny_eq_false (rows : List CallRow) (k : String)
    (h : findCall rows k = none) : rows.any (fun r => r.argsHash == k) = false := by
  rw [List.any_eq_false]
  intro r hr
  have := (findCall_none_iff rows k).mp h r hr
  simpa using this

theorem writeFile_of_lookup_none (fs : List (String × Bytes)) (p : String) (bs : Bytes)
    (h : lookupFile fs p = none) : writeFile fs p bs = fs ++ [(p, bs)] := by
  unfold writeFile
  rw [if_neg]
  intro hany
  obtain ⟨e, he, hp⟩ := List.any_eq_true.mp hany
  unfold lookupFile at h
  rw [Option.map_eq_none'] at h
  have := List.find?_eq_none.mp h e he
  exact this hp

theorem lookupFile_append_self (fs : List (String × Bytes)) (p : String) (bs : Bytes)
    (h : lookupFile fs p = none) : lookupFile (fs ++ [(p, bs)]) p = some bs := by
  unfold lookupFile at *
  rw [Option.map_eq_none'] at h
  rw [List.find?_append, h]
  simp

theorem append_colon_right_inj (a b j : String)
    (h : a ++ ":" ++ j = b ++ ":" ++ j) : a = b := by
  have hd := congrArg String.data h
  simp only [String.data_append] at hd
  have hd2 : a.data ++ (":".data ++ j.data) = b.data ++ (":".data ++ j.data) := by
    simpa [List.append_assoc] using hd
  have hd3 : a.data = b.data := List.append_left_injective (":".data ++ j.data) hd2
  cases a; cases b
  exact congrArg String.mk (by simpa using hd3)

/-! ## Claims -/

/-- C5: if no Content record with hash `h` exists, `loadContent h` fails with
the content-not-found error; if the record exists but the backing file is
absent, it fails with the content-missing error.  In both cases the result is
an `error`, never an empty byte payload. -/
theorem C5_load_failures_are_hard_errors (st : SysState) (h : String) :
    (findContent st.contentRows h = none →
        loadContent st h = .error (.notFound h)) ∧
    (∀ r, findContent st.contentRows h = some r →
        lookupFile st.files ("./data/" ++ r.filePath) = none →
        loadContent st h = .error (.missing ("./data/" ++ r.filePath))) := by
  constructor
  · intro hn
    unfold loadContent
    rw [hn]
  · intro r hr hf
    unfold loadContent
    rw [hr]
    simp only [hf]

/-- Witness for C5: a `deadbeef` lookup in an empty store is ContentNotFound,
and a record whose backing file was removed externally is ContentMissing. -/
theorem C5_load_failures_witness :
    loadContent SysState.empty "deadbeef" = .error (.notFound "deadbeef") ∧
    loadContent ⟨[⟨"abc", "scraped/abc.bin", 3, "application/octet-stream", 1⟩], [], []⟩
        "abc" = .error (.missing "./data/scraped/abc.bin") :=
  ⟨(C5_load_failures_are_hard_errors SysState.empty "deadbeef").1 (by decide),
   (C5_load_failures_are_hard_errors
      ⟨[⟨"abc", "scraped/abc.bin", 3, "application/octet-stream", 1⟩], [], []⟩ "abc").2
      ⟨"abc", "scraped/abc.bin", 3, "application/octet-stream", 1⟩ (by decide) (by decide)⟩

/-- C6: the fingerprint is deterministic — the key depends on the arguments
only through their serialization, so identical name and identically
serializing arguments always give the same key — and namespaced: with a
collision-free digest, distinct operation names give distinct keys even for
identical arguments. -/
theorem C6_fingerprint_deterministic_and_namespaced
    (H : Bytes → String) (hH : Function.Injective H) :
    (∀ (name : String) (args1 args2 : List JSValue),
        Json.stringify (.arr args1) = Json.stringify (.arr args2) →
        hashArgs H name args1 = hashArgs H name args2) ∧
    (∀ (name1 name2 : String) (args : List JSValue),
        name1 ≠ name2 → hashArgs H name1 args ≠ hashArgs H name2 args) := by
  constructor
  · intro name a1 a2 hs
    unfold hashArgs
    rw [hs]
  · intro n1 n2 args hne heq
    apply hne
    unfold hashArgs at heq
    have h1 := strToBytes_inj (hH heq)
    exact append_colon_right_inj n1 n2 (Json.stringify (.arr args)) h1

/-- Witness for C6 at concrete inputs: same name and arguments give the same
key, different names with the same argument give different keys. -/
theorem C6_fingerprint_witness :
    hashArgs Hc "ns.op" [.num 5] = hashArgs Hc "ns.op" [.num 5] ∧
    hashArgs Hc "ns.op" [.num 5] ≠ hashArgs Hc "other.op" [.num 5] :=
  ⟨(C6_fingerprint_deterministic_and_namespaced Hc Hc_inj).1 "ns.op" [.num 5] [.num 5] rfl,
   (C6_fingerprint_deterministic_and_namespaced Hc Hc_inj).2 "ns.op" "other.op" [.num 5]
     (by decide)⟩

/-- C4: when the wrapped operation throws on a miss, the failure is
propagated unchanged, the stored state is exactly as before the call (no
Ledger row, no Content record, no file), and any subsequent identical call
re-executes the operation. -/
theorem C4_failed_op_leaves_no_trace
    (H : Bytes → String) (options : MemoizeOptions) (key : String)
    (op : List JSValue → Except String JSData) (args : List JSValue)
    (now dur : Nat) (st : SysState) (e : String)
    (hnc : findCall st.callRows (memoKey H options key args) = none)
    (hop : op args = .error e) :
    memoizedCall H options key op args now dur st = (.error (.opFailed e), st, true) ∧
    (∀ now2 dur2 : Nat,
      (memoizedCall H options key op args now2 dur2
        ((memoizedCall H options key op args now dur st).2.1)).2.2 = true) := by
  simp only [memoKey] at hnc
  have main : ∀ n d : Nat,
      memoizedCall H options key op args n d st = (.error (.opFailed e), st, true) := by
    intro n d
    unfold memoizedCall
    cases hic : options.ignoreCache
    · simp [hic, hnc, hop]
    · simp [hic, hop]
  refine ⟨main now dur, fun now2 dur2 => ?_⟩
  rw [main now dur]
  rw [main now2 dur2]

/-- Witness for C4: a throwing operation on an empty store fails with its own
error, leaves the state empty, and the retry invokes the operation again. -/
theorem C4_failed_op_witness :
    memoizedCall Hc ⟨none, false⟩ "f" (fun _ => .error "boom") [] 0 0 SysState.empty
      = (.error (.opFailed "boom"), SysState.empty, true) ∧
    (memoizedCall Hc ⟨none, false⟩ "f" (fun _ => .error "boom") [] 1 1
      ((memoizedCall Hc ⟨none, false⟩ "f" (fun _ => .error "boom") [] 0 0
        SysState.empty).2.1)).2.2 = true :=
  ⟨(C4_failed_op_leaves_no_trace Hc ⟨none, false⟩ "f" (fun _ => .error "boom") [] 0 0
      SysState.empty "boom" rfl rfl).1,
   (C4_failed_op_leaves_no_trace Hc ⟨none, false⟩ "f" (fun _ => .error "boom") [] 0 0
      SysState.empty "boom" rfl rfl).2 1 1⟩

/-- C7: on a cache hit the wrapped operation is not invoked, the content
table and files are untouched, and the only Ledger change is setting
`last_accessed` on the matching row — every row keeps its `content_hash`,
`operation_name`, `argument_snapshot`, `created_at` and
`execution_duration`. -/
theorem C7_hit_updates_only_last_accessed
    (H : Bytes → String) (options : MemoizeOptions) (key : String)
    (op : List JSValue → Except String JSData) (args : List JSValue)
    (now dur : Nat) (st : SysState) (cached : CallRow)
    (hic : options.ignoreCache = false)
    (hhit : findCall st.callRows (memoKey H options key args) = some cached) :
    (memoizedCall H options key op args now dur st).2.2 = false ∧
    (memoizedCall H options key op args now dur st).2.1.contentRows = st.contentRows ∧
    (memoizedCall H options key op args now dur st).2.1.files = st.files ∧
    (memoizedCall H options key op args now dur st).2.1.callRows =
      st.callRows.map (fun r =>
        if r.argsHash == memoKey H options key args then { r with lastAccessed := now }
        else r) ∧
    (∀ r ∈ st.callRows,
      ∃ r' ∈ (memoizedCall H options key op args now dur st).2.1.callRows,
        r'.argsHash = r.argsHash ∧ r'.functionName = r.functionName ∧
        r'.argsJson = r.argsJson ∧ r'.contentHash = r.contentHash ∧
        r'.createdAt = r.createdAt ∧ r'.fetchDurationMs = r.fetchDurationMs) := by
  simp only [memoKey] at hhit
  have hsplit : ∃ res, memoizedCall H options key op args now dur st =
      (res,
       { st with callRows := st.callRows.map (fun r =>
           if r.argsHash == hashArgs H (memoFunctionName options key) args then
             { r with lastAccessed := now }
           else r) },
       false) := by
    unfold memoizedCall
    simp only [hic, Bool.false_eq_true, if_false, hhit]
    cases hl : loadContent
        { st with callRows := st.callRows.map (fun r =>
            if r.argsHash == hashArgs H (memoFunctionName options key) args then
              { r with lastAccessed := now }
            else r) } cached.contentHash with
    | error e2 => exact ⟨.error (.loadFailed e2), by simp [hl]⟩
    | ok buf =>
      by_cases he : strEndsWith cached.contentHash ".json"
      · cases hp : Json.parse (bytesToStr buf) with
        | some v => exact ⟨.ok (.value v), by simp [hl, he, hp]⟩
        | none => exact ⟨.error .badStoredJson, by simp [hl, he, hp]⟩
      · exact ⟨.ok (.buffer buf), by simp [hl, he]⟩
  obtain ⟨res, heq⟩ := hsplit
  rw [heq]
  refine ⟨rfl, rfl, rfl, by simp [memoKey], ?_⟩
  intro r hr
  refine ⟨if r.argsHash == hashArgs H (memoFunctionName options key) args then
      { r with lastAccessed := now } else r, List.mem_map_of_mem _ hr, ?_⟩
  by_cases hcase : r.argsHash == hashArgs H (memoFunctionName options key) args
  · simp [hcase]
  · simp [hcase]

/-- A concrete Ledger row whose fingerprint matches `memoKey` for a no-arg
call of the decorated method `f` with no provider configured. -/
def c7row : CallRow :=
  ⟨memoKey Hc ⟨none, false⟩ "f" [], "unknown.f", "[]", "h", 11, 22, 33⟩

/-- A state holding only `c7row`. -/
def c7st : SysState := ⟨[], [c7row], []⟩

/-- Witness for C7 at a concrete hit: the operation is not invoked and the
row keeps every field except `last_accessed`, which becomes the hit time. -/
theorem C7_hit_witness :
    (memoizedCall Hc ⟨none, false⟩ "f" (fun _ => .ok (.str "x")) [] 99 5 c7st).2.2
      = false ∧
    (memoizedCall Hc ⟨none, false⟩ "f" (fun _ => .ok (.str "x")) [] 99 5 c7st).2.1.callRows
      = [⟨memoKey Hc ⟨none, false⟩ "f" [], "unknown.f", "[]", "h", 11, 99, 33⟩] := by
  have h := C7_hit_updates_only_last_accessed Hc ⟨none, false⟩ "f"
      (fun _ => .ok (.str "x")) [] 99 5 c7st c7row rfl (by decide)
  refine ⟨h.1, ?_⟩
  rw [h.2.2.2.1]
  decide

theorem saveContent_fst (H : Bytes → String) (c : ContentData) (t : String)
    (st : SysState) : (saveContent H c t st).1 = H c.toBytes := by
  unfold saveContent
  cases hfc : findContent st.contentRows (H c.toBytes) <;> simp [hfc]

theorem saveContent_callRows (H : Bytes → String) (c : ContentData) (t : String)
    (st : SysState) : (saveContent H c t st).2.callRows = st.callRows := by
  unfold saveContent
  cases hfc : findContent st.contentRows (H c.toBytes) <;> simp [hfc]

theorem findContent_map (rows : List ContentRow) (h : String) (g : ContentRow → ContentRow)
    (hg : ∀ r, (g r).hash = r.hash) :
    findContent (rows.map g) h = (findContent rows h).map g := by
  unfold findContent
  rw [List.find?_map]
  have hp : ((fun r : ContentRow => r.hash == h) ∘ g) = (fun r : ContentRow => r.hash == h) := by
    funext r
    simp [Function.comp, hg r]
  rw [hp]

theorem findCall_map (rows : List CallRow) (k : String) (g : CallRow → CallRow)
    (hg : ∀ r, (g r).argsHash = r.argsHash) :
    findCall (rows.map g) k = (findCall rows k).map g := by
  unfold findCall
  rw [List.find?_map]
  have hp : ((fun r : CallRow => r.argsHash == k) ∘ g) = (fun r : CallRow => r.argsHash == k) := by
    funext r
    simp [Function.comp, hg r]
  rw [hp]

theorem callAny_of_find_some (rows : List CallRow) (k : String) (c : CallRow)
    (h : findCall rows k = some c) :
    rows.any (fun r => r.argsHash == k) = true := by
  unfold findCall at h
  have hp := List.find?_some h
  exact List.any_eq_true.mpr ⟨c, List.mem_of_find?_eq_some h, hp⟩

theorem findCall_of_any_false (rows : List CallRow) (k : String)
    (h : rows.any (fun r => r.argsHash == k) = false) : findCall rows k = none := by
  unfold findCall
  exact List.find?_eq_none.mpr (List.any_eq_false.mp h)

/-- Path-tracing equation: with `ignoreCache` set, a successful call always
takes the miss path — executes, saves, upserts — regardless of any cached
entry. -/
theorem memoizedCall_ignore_eq
    (H : Bytes → String) (options : MemoizeOptions) (key : String)
    (op : List JSValue → Except String JSData) (args : List JSValue)
    (now dur : Nat) (st : SysState) (r : JSData)
    (hic : options.ignoreCache = true) (hop : op args = .ok r) :
    memoizedCall H options key op args now dur st =
      (.ok r,
       (if (saveContent H (serializeData r) (inferMimeType r) st).2.callRows.any
            (fun row => row.argsHash == memoKey H options key args) then
          { (saveContent H (serializeData r) (inferMimeType r) st).2 with
              callRows :=
                (saveContent H (serializeData r) (inferMimeType r) st).2.callRows.map
                  (fun row =>
                    if row.argsHash == memoKey H options key args then
                      { row with
                          contentHash :=
                            (saveContent H (serializeData r) (inferMimeType r) st).1,
                          lastAccessed := now, fetchDurationMs := dur }
                    else row) }
        else
          { (saveContent H (serializeData r) (inferMimeType r) st).2 with
              callRows :=
                (saveContent H (serializeData r) (inferMimeType r) st).2.callRows ++
                  [⟨memoKey H options key args, memoFunctionName options key,
                    Json.stringify (.arr args),
                    (saveContent H (serializeData r) (inferMimeType r) st).1,
                    now, now, dur⟩] }),
       true) := by
  unfold memoizedCall
  simp [hic, hop, memoKey]

/-- C8: a miss whose fingerprint already has a Ledger row does not fail —
the upsert overwrites `content_hash`, `execution_duration` and
`last_accessed` in the existing row, while `created_at` (and the name and
argument snapshot) keep their original values. -/
theorem C8_upsert_overwrites_preserving_created_at
    (H : Bytes → String) (options : MemoizeOptions) (key : String)
    (op : List JSValue → Except String JSData) (args : List JSValue)
    (now dur : Nat) (st : SysState) (r : JSData) (cached : CallRow)
    (hic : options.ignoreCache = true)
    (hop : op args = .ok r)
    (hrow : findCall st.callRows (memoKey H options key args) = some cached) :
    (memoizedCall H options key op args now dur st).1 = .ok r ∧
    (memoizedCall H options key op args now dur st).2.1.callRows =
      st.callRows.map (fun row =>
        if row.argsHash == memoKey H options key args then
          { row with contentHash := H (serializeData r).toBytes,
                     lastAccessed := now, fetchDurationMs := dur }
        else row) ∧
    (∀ row ∈ st.callRows,
      ∃ row' ∈ (memoizedCall H options key op args now dur st).2.1.callRows,
        row'.argsHash = row.argsHash ∧ row'.createdAt = row.createdAt ∧
        row'.functionName = row.functionName ∧ row'.argsJson = row.argsJson) := by
  rw [memoizedCall_ignore_eq H options key op args now dur st r hic hop]
  have hany : (saveContent H (serializeData r) (inferMimeType r) st).2.callRows.any
      (fun row => row.argsHash == memoKey H options key args) = true := by
    rw [saveContent_callRows]
    exact callAny_of_find_some _ _ cached hrow
  refine ⟨rfl, ?_, ?_⟩ <;> simp only [hany, if_true] <;>
    rw [saveContent_callRows, saveContent_fst]
  intro row hmem
  refine ⟨if row.argsHash == memoKey H options key args then
      { row with contentHash := H (serializeData r).toBytes,
                 lastAccessed := now, fetchDurationMs := dur }
    else row, List.mem_map_of_mem _ hmem, ?_⟩
  by_cases hcase : row.argsHash == memoKey H options key args
  · simp [hcase]
  · simp [hcase]

/-- A Ledger row for the fingerprint of a no-arg call of `f` (no provider),
with `created_at = 7`, used to exercise the upsert-on-existing-row path. -/
def c8row : CallRow :=
  ⟨memoKey Hc ⟨none, true⟩ "f" [], "unknown.f", "[]", "old", 7, 8, 9⟩

/-- A state holding only `c8row`. -/
def c8st : SysState := ⟨[], [c8row], []⟩

/-- Witness for C8: the re-executed call succeeds, and the existing row gets
the new content hash, duration 60 and access time 50, while `created_at`
stays 7. -/
theorem C8_upsert_witness :
    (memoizedCall Hc ⟨none, true⟩ "f" (fun _ => .ok (.str "x")) [] 50 60 c8st).1
      = .ok (.str "x") ∧
    (memoizedCall Hc ⟨none, true⟩ "f" (fun _ => .ok (.str "x")) [] 50 60 c8st).2.1.callRows
      = [⟨memoKey Hc ⟨none, true⟩ "f" [], "unknown.f", "[]",
          Hc (strToBytes "x"), 7, 50, 60⟩] := by
  have h := C8_upsert_overwrites_preserving_created_at Hc ⟨none, true⟩ "f"
      (fun _ => .ok (.str "x")) [] 50 60 c8st (.str "x") c8row rfl rfl (by decide)
  refine ⟨h.1, ?_⟩
  rw [h.2.1]
  decide

theorem findContent_after_save (H : Bytes → String) (c : ContentData) (t : String)
    (st : SysState) :
    ∃ cr, findContent (saveContent H c t st).2.contentRows (H c.toBytes) = some cr := by
  unfold saveContent
  cases hfc : findContent st.contentRows (H c.toBytes) with
  | some row =>
    simp only [hfc]
    have hg : ∀ r : ContentRow,
        ((fun r : ContentRow =>
          if r.hash == H c.toBytes then { r with referenceCount := r.referenceCount + 1 }
          else r) r).hash = r.hash := by
      intro r
      by_cases hr : r.hash == H c.toBytes <;> simp [hr]
    refine ⟨if row.hash == H c.toBytes then
        { row with referenceCount := row.referenceCount + 1 } else row, ?_⟩
    rw [findContent_map st.contentRows (H c.toBytes) _ hg, hfc]
    rfl
  | none =>
    simp only [hfc]
    refine ⟨⟨H c.toBytes, "scraped/" ++ H c.toBytes ++ "." ++ getExtensionFromMimeType t,
        c.toBytes.length, t, 1⟩, ?_⟩
    unfold findContent at hfc ⊢
    rw [List.find?_append, hfc]
    simp

/-- C10: with `ignoreCache` set, every invocation skips the hit path even
when a Ledger row for the fingerprint exists: the operation executes, its
serialized result is in the Content Store afterwards, and the Ledger row for
the fingerprint points at the new content hash with fresh access time and
duration. -/
theorem C10_ignore_cache_always_executes
    (H : Bytes → String) (options : MemoizeOptions) (key : String)
    (op : List JSValue → Except String JSData) (args : List JSValue)
    (now dur : Nat) (st : SysState) (r : JSData)
    (hic : options.ignoreCache = true)
    (hop : op args = .ok r) :
    (memoizedCall H options key op args now dur st).2.2 = true ∧
    (memoizedCall H options key op args now dur st).1 = .ok r ∧
    (∃ cr, getContentInfo (memoizedCall H options key op args now dur st).2.1
        (H (serializeData r).toBytes) = some cr) ∧
    (∃ row, findCall (memoizedCall H options key op args now dur st).2.1.callRows
        (memoKey H options key args) = some row ∧
      row.contentHash = H (serializeData r).toBytes ∧
      row.lastAccessed = now ∧ row.fetchDurationMs = dur) := by
  rw [memoizedCall_ignore_eq H options key op args now dur st r hic hop]
  refine ⟨rfl, rfl, ?_, ?_⟩
  · by_cases hany : (saveContent H (serializeData r) (inferMimeType r) st).2.callRows.any
        (fun row => row.argsHash == memoKey H options key args) = true
    · simp only [hany, if_true]
      unfold getContentInfo
      exact findContent_after_save H (serializeData r) (inferMimeType r) st
    · simp only [Bool.not_eq_true] at hany
      simp only [hany, Bool.false_eq_true, if_false]
      unfold getContentInfo
      exact findContent_after_save H (serializeData r) (inferMimeType r) st
  · by_cases hany : (saveContent H (serializeData r) (inferMimeType r) st).2.callRows.any
        (fun row => row.argsHash == memoKey H options key args) = true
    · simp only [hany, if_true]
      have hup : ∀ row : CallRow,
          ((fun row : CallRow =>
            if row.argsHash == memoKey H options key args then
              { row with
                  contentHash := (saveContent H (serializeData r) (inferMimeType r) st).1,
                  lastAccessed := now, fetchDurationMs := dur }
            else row) row).argsHash = row.argsHash := by
        intro row
        by_cases hr : row.argsHash == memoKey H options key args <;> simp [hr]
      obtain ⟨c0, hmem, hpred⟩ := List.any_eq_true.mp hany
      have hfind : ∃ c1, findCall
          (saveContent H (serializeData r) (inferMimeType r) st).2.callRows
          (memoKey H options key args) = some c1 ∧
          (c1.argsHash == memoKey H options key args) = true := by
        unfold findCall
        cases hf : (saveContent H (serializeData r) (inferMimeType r) st).2.callRows.find?
            (fun row => row.argsHash == memoKey H options key args) with
        | none =>
          exact absurd hpred (List.find?_eq_none.mp hf c0 hmem)
        | some c1 =>
          have hp := List.find?_some hf
          exact ⟨c1, rfl, hp⟩
      obtain ⟨c1, hc1, hc1p⟩ := hfind
      refine ⟨{ c1 with
          contentHash := (saveContent H (serializeData r) (inferMimeType r) st).1,
          lastAccessed := now, fetchDurationMs := dur }, ?_, ?_, rfl, rfl⟩
      · rw [findCall_map _ _ _ hup, hc1, Option.map_some']
        rw [if_pos hc1p]
      · rw [saveContent_fst]
    · simp only [Bool.not_eq_true] at hany
      simp only [hany, Bool.false_eq_true, if_false]
      have hnone : findCall
          (saveContent H (serializeData r) (inferMimeType r) st).2.callRows
          (memoKey H options key args) = none :=
        findCall_of_any_false _ _ hany
      refine ⟨⟨memoKey H options key args, memoFunctionName options key,
          Json.stringify (.arr args),
          (saveContent H (serializeData r) (inferMimeType r) st).1, now, now, dur⟩,
        ?_, by rw [saveContent_fst], rfl, rfl⟩
      unfold findCall at hnone ⊢
      rw [List.find?_append, hnone]
      simp

/-- A Ledger row for the fingerprint of a no-arg call of `g` (no provider). -/
def c10row : CallRow :=
  ⟨memoKey Hc ⟨none, true⟩ "g" [], "unknown.g", "[]", "old", 1, 2, 3⟩

/-- A state holding only `c10row`, so the fingerprint being called is
already cached. -/
def c10st : SysState := ⟨[], [c10row], []⟩

/-- Witness for C10: with `ignoreCache` and the fingerprint already cached,
the call still invokes the operation and returns its live result. -/
theorem C10_ignore_cache_witness :
    (memoizedCall Hc ⟨none, true⟩ "g" (fun _ => .ok (.str "new")) [] 4 5 c10st).2.2
      = true ∧
    (memoizedCall Hc ⟨none, true⟩ "g" (fun _ => .ok (.str "new")) [] 4 5 c10st).1
      = .ok (.str "new") :=
  ⟨(C10_ignore_cache_always_executes Hc ⟨none, true⟩ "g" (fun _ => .ok (.str "new"))
      [] 4 5 c10st (.str "new") rfl rfl).1,
   (C10_ignore_cache_always_executes Hc ⟨none, true⟩ "g" (fun _ => .ok (.str "new"))
      [] 4 5 c10st (.str "new") rfl rfl).2.1⟩

/-- Fold a sequence of `saveContent` calls, collecting the returned hashes. -/
def saveMany (H : Bytes → String) (ps : List (ContentData × String)) (st : SysState) :
    List String × SysState :=
  match ps with
  | [] => ([], st)
  | p :: rest =>
      let r := saveContent H p.1 p.2 st
      let q := saveMany H rest r.2
      (r.1 :: q.1, q.2)

theorem saveContent_existing_eq (H : Bytes → String) (c : ContentData) (t : String)
    (st : SysState) (row : ContentRow)
    (hfc : findContent st.contentRows (H c.toBytes) = some row) :
    saveContent H c t st =
      (H c.toBytes,
       { st with contentRows := st.contentRows.map (fun r =>
           if r.hash == H c.toBytes then { r with referenceCount := r.referenceCount + 1 }
           else r) }) := by
  simp [saveContent, hfc]

theorem saveContent_fresh_eq (H : Bytes → String) (c : ContentData) (t : String)
    (st : SysState)
    (hfc : findContent st.contentRows (H c.toBytes) = none) :
    saveContent H c t st =
      (H c.toBytes,
       { st with
           files := writeFile st.files
             ("./data/" ++ ("scraped/" ++ H c.toBytes ++ "." ++ getExtensionFromMimeType t))
             c.toBytes,
           contentRows := st.contentRows ++
             [{ hash := H c.toBytes,
                filePath := "scraped/" ++ H c.toBytes ++ "." ++ getExtensionFromMimeType t,
                sizeBytes := c.toBytes.length, mimeType := t, referenceCount := 1 }] }) := by
  simp [saveContent, hfc]

theorem map_id_of_forall_mem {α : Type} (l : List α) (f : α → α)
    (h : ∀ x ∈ l, f x = x) : l.map f = l := by
  induction l with
  | nil => rfl
  | cons x xs ih =>
    rw [List.map_cons, h x (by simp), ih (fun y hy => h y (by simp [hy]))]

/-- Saves of byte-identical content into a state that already holds the one
row for that hash only bump that row's reference count; tables, files and
returned hashes are otherwise untouched. -/
theorem saveMany_existing (H : Bytes → String) (B : Bytes) :
    ∀ (ps : List (ContentData × String)) (base : List ContentRow) (row : ContentRow)
      (calls : List CallRow) (files : List (String × Bytes)),
      (∀ p ∈ ps, ContentData.toBytes p.1 = B) →
      (∀ r ∈ base, r.hash ≠ H B) →
      row.hash = H B →
      saveMany H ps ⟨base ++ [row], calls, files⟩ =
        (ps.map (fun _ => H B),
         ⟨base ++ [{ row with referenceCount := row.referenceCount + ps.length }],
          calls, files⟩) := by
  intro ps
  induction ps with
  | nil =>
    intro base row calls files hB hbase hrow
    simp [saveMany]
  | cons p rest ih =>
    intro base row calls files hB hbase hrow
    have hpB : p.1.toBytes = B := hB p (by simp)
    have hfind : findContent (base ++ [row]) (H p.1.toBytes) = some row := by
      unfold findContent
      rw [List.find?_append]
      have hb : base.find? (fun r => r.hash == H p.1.toBytes) = none := by
        rw [List.find?_eq_none]
        intro r hr
        simp only [beq_iff_eq]
        rw [hpB]
        exact hbase r hr
      rw [hb]
      simp [hpB, hrow]
    have hstep := saveContent_existing_eq H p.1 p.2 ⟨base ++ [row], calls, files⟩ row hfind
    simp only [saveMany, hstep]
    have hmap : (base ++ [row]).map (fun r =>
        if r.hash == H p.1.toBytes then { r with referenceCount := r.referenceCount + 1 }
        else r) = base ++ [{ row with referenceCount := row.referenceCount + 1 }] := by
      rw [List.map_append]
      congr 1
      · refine map_id_of_forall_mem base _ (fun r hr => ?_)
        have hneg : ¬ (r.hash == H p.1.toBytes) = true := by
          simp only [beq_iff_eq]
          rw [hpB]
          exact hbase r hr
        rw [if_neg hneg]
      · simp [hpB, hrow]
    rw [hmap]
    have hrec := ih base { row with referenceCount := row.referenceCount + 1 } calls files
      (fun q hq => hB q (by simp [hq])) hbase (by simpa using hrow)
    have harith : row.referenceCount + 1 + rest.length
        = row.referenceCount + (rest.length + 1) := by omega
    simp only [hrec, hpB, List.map_cons, List.length_cons, harith]

set_option linter.unnecessarySeqFocus false in
/-- C2: saving the same bytes `B` repeatedly (any content types) returns
`H B` every time; the file is written by the first save and never rewritten;
the Content table gains exactly one record whose `reference_count` equals
the number of saves; the Ledger is untouched. -/
theorem C2_idempotent_save
    (H : Bytes → String) (B : Bytes) (p0 : ContentData × String)
    (rest : List (ContentData × String)) (st : SysState)
    (hB0 : p0.1.toBytes = B)
    (hBr : ∀ p ∈ rest, ContentData.toBytes p.1 = B)
    (hnorow : ∀ r ∈ st.contentRows, r.hash ≠ H B)
    (hnofile : lookupFile st.files
        ("./data/" ++ ("scraped/" ++ H B ++ "." ++ getExtensionFromMimeType p0.2))
        = none) :
    (saveMany H (p0 :: rest) st).1 = (p0 :: rest).map (fun _ => H B) ∧
    (saveContent H p0.1 p0.2 st).2.files = st.files ++
      [("./data/" ++ ("scraped/" ++ H B ++ "." ++ getExtensionFromMimeType p0.2), B)] ∧
    (saveMany H (p0 :: rest) st).2.files = (saveContent H p0.1 p0.2 st).2.files ∧
    (saveMany H (p0 :: rest) st).2.contentRows = st.contentRows ++
      [{ hash := H B,
         filePath := "scraped/" ++ H B ++ "." ++ getExtensionFromMimeType p0.2,
         sizeBytes := B.length, mimeType := p0.2,
         referenceCount := (p0 :: rest).length }] ∧
    (saveMany H (p0 :: rest) st).2.callRows = st.callRows := by
  have hfc : findContent st.contentRows (H p0.1.toBytes) = none := by
    rw [findContent_none_iff]
    intro r hr
    rw [hB0]
    exact hnorow r hr
  have hfirst := saveContent_fresh_eq H p0.1 p0.2 st hfc
  rw [hB0] at hfirst
  rw [writeFile_of_lookup_none st.files _ B hnofile] at hfirst
  have hrest := saveMany_existing H B rest st.contentRows
    { hash := H B,
      filePath := "scraped/" ++ H B ++ "." ++ getExtensionFromMimeType p0.2,
      sizeBytes := B.length, mimeType := p0.2, referenceCount := 1 }
    st.callRows
    (st.files ++
      [("./data/" ++ ("scraped/" ++ H B ++ "." ++ getExtensionFromMimeType p0.2), B)])
    hBr hnorow rfl
  refine ⟨?_, ?_, ?_, ?_, ?_⟩ <;>
    simp only [saveMany, hfirst, hrest, List.map_cons, List.length_cons] <;>
    simp [Nat.add_comm]

theorem lookup_map_overwrite :
    ∀ (fs : List (String × Bytes)) (p : String) (bs : Bytes),
      fs.any (fun e => e.1 == p) = true →
      lookupFile (fs.map (fun e => if e.1 == p then (p, bs) else e)) p = some bs := by
  intro fs p bs
  induction fs with
  | nil => intro h; simp at h
  | cons e es ih =>
    intro hany
    by_cases he : (e.1 == p) = true
    · unfold lookupFile
      rw [List.map_cons, if_pos he, List.find?_cons_of_pos]
      · rfl
      · simp
    · unfold lookupFile
      rw [List.map_cons, if_neg he, List.find?_cons_of_neg]
      · apply ih
        simp only [List.any_cons, he, Bool.false_or] at hany
        exact hany
      · simp [he]

theorem lookupFile_writeFile_self (fs : List (String × Bytes)) (p : String) (bs : Bytes) :
    lookupFile (writeFile fs p bs) p = some bs := by
  by_cases hany : fs.any (fun e => e.1 == p) = true
  · unfold writeFile
    rw [if_pos hany]
    exact lookup_map_overwrite fs p bs hany
  · unfold writeFile
    rw [if_neg hany]
    have hn : lookupFile fs p = none := by
      unfold lookupFile
      rw [List.find?_eq_none.mpr]
      · rfl
      · simp only [Bool.not_eq_true] at hany
        exact List.any_eq_false.mp hany
    exact lookupFile_append_self fs p bs hn

/-- C3: with the content-addressing invariant holding and a collision-free
digest, `loadContent` after `saveContent` returns exactly the saved bytes,
for text and binary payloads alike. -/
theorem C3_save_load_roundtrip
    (H : Bytes → String) (hH : Function.Injective H) (st : SysState)
    (hco : contentOk H st) (B : ContentData) (t : String) :
    loadContent (saveContent H B t st).2 (saveContent H B t st).1 = .ok B.toBytes := by
  rw [saveContent_fst]
  cases hfc : findContent st.contentRows (H B.toBytes) with
  | some row =>
    have hfc' := hfc
    unfold findContent at hfc'
    have hmem := List.mem_of_find?_eq_some hfc'
    have hrh := List.find?_some hfc'
    rw [saveContent_existing_eq H B t st row hfc]
    unfold loadContent
    have hg : ∀ r : ContentRow,
        ((fun r : ContentRow =>
          if r.hash == H B.toBytes then { r with referenceCount := r.referenceCount + 1 }
          else r) r).hash = r.hash := by
      intro r
      by_cases hr : (r.hash == H B.toBytes) = true <;> simp [hr]
    rw [findContent_map st.contentRows (H B.toBytes) _ hg, hfc]
    simp only [Option.map_some']
    have hfp : ((fun r : ContentRow =>
        if r.hash == H B.toBytes then { r with referenceCount := r.referenceCount + 1 }
        else r) row).filePath = row.filePath := by
      by_cases hr : (row.hash == H B.toBytes) = true <;> simp [hr]
    rw [hfp]
    have hok := hco row hmem
    unfold rowFileOk at hok
    cases hlf : lookupFile st.files ("./data/" ++ row.filePath) with
    | none => rw [hlf] at hok; exact absurd hok (by simp)
    | some bs =>
      rw [hlf] at hok
      have hbs : H bs = row.hash := by simpa using hok
      have hrw : row.hash = H B.toBytes := by simpa using hrh
      have hbsB : bs = B.toBytes := hH (by rw [hbs, hrw])
      simp only [hbsB]
  | none =>
    rw [saveContent_fresh_eq H B t st hfc]
    unfold loadContent
    unfold findContent at hfc ⊢
    rw [List.find?_append, hfc]
    simp only [Option.none_or]
    rw [List.find?_cons_of_pos]
    · simp only [Option.map_some']
      rw [lookupFile_writeFile_self]
    · simp

/-- Witness for C2: two saves of the byte `x` (as text, then as the same
byte buffer under another content type) return the same hash twice and leave
one record with `reference_count = 2`, one file. -/
theorem C2_idempotent_save_witness :
    (saveMany Hc [(ContentData.str "x", "text/plain"),
        (ContentData.buf [120], "application/json")] SysState.empty).1
      = [Hc [120], Hc [120]] ∧
    (saveMany Hc [(ContentData.str "x", "text/plain"),
        (ContentData.buf [120], "application/json")] SysState.empty).2.contentRows
      = [{ hash := Hc [120], filePath := "scraped/" ++ Hc [120] ++ ".txt",
           sizeBytes := 1, mimeType := "text/plain", referenceCount := 2 }] ∧
    (saveMany Hc [(ContentData.str "x", "text/plain"),
        (ContentData.buf [120], "application/json")] SysState.empty).2.files
      = [("./data/" ++ ("scraped/" ++ Hc [120] ++ ".txt"), [120])] := by
  have h := C2_idempotent_save Hc [120] (ContentData.str "x", "text/plain")
      [(ContentData.buf [120], "application/json")] SysState.empty (by decide)
      (by decide) (by decide) (by decide)
  refine ⟨?_, ?_, ?_⟩
  · rw [h.1]
    decide
  · rw [h.2.2.2.1]
    decide
  · rw [h.2.2.1, h.2.1]
    decide

/-- Witness for C3: round-trip of a text payload and of a binary payload
through the content store on a fresh state. -/
theorem C3_save_load_roundtrip_witness :
    loadContent (saveContent Hc (ContentData.str "hi") "text/plain" SysState.empty).2
        (saveContent Hc (ContentData.str "hi") "text/plain" SysState.empty).1
      = .ok [104, 105] ∧
    loadContent (saveContent Hc (ContentData.buf [0, 255, 7]) "image/png"
          SysState.empty).2
        (saveContent Hc (ContentData.buf [0, 255, 7]) "image/png" SysState.empty).1
      = .ok [0, 255, 7] := by
  have h1 := C3_save_load_roundtrip Hc Hc_inj SysState.empty (by decide)
      (ContentData.str "hi") "text/plain"
  have h2 := C3_save_load_roundtrip Hc Hc_inj SysState.empty (by decide)
      (ContentData.buf [0, 255, 7]) "image/png"
  exact ⟨by rw [h1]; decide, by rw [h2]; decide⟩

theorem string_append_left_inj (s j1 j2 : String) (h : s ++ j1 = s ++ j2) : j1 = j2 := by
  have hd := congrArg String.data h
  simp only [String.data_append] at hd
  have hc := List.append_cancel_left hd
  cases j1; cases j2
  exact congrArg String.mk (by simpa using hc)

/-- Semantic equality of argument values up to object key insertion order:
top-level object fields may be permuted, everything else must be equal. -/
def sameFieldsUpToOrder (v w : JSValue) : Prop :=
  match v, w with
  | .obj fs, .obj gs => List.Perm fs gs
  | v, w => v = w

instance (v w : JSValue) : Decidable (sameFieldsUpToOrder v w) := by
  unfold sameFieldsUpToOrder
  cases v <;> cases w <;> dsimp only <;> infer_instance

/-- Path-tracing equation for a genuine miss (`ignoreCache` off, no Ledger
row for the fingerprint): the operation executes, its serialization is
saved, and the Ledger row is upserted. -/
theorem memoizedCall_miss_eq
    (H : Bytes → String) (options : MemoizeOptions) (key : String)
    (op : List JSValue → Except String JSData) (args : List JSValue)
    (now dur : Nat) (st : SysState) (r : JSData)
    (hic : options.ignoreCache = false)
    (hmiss : findCall st.callRows (memoKey H options key args) = none)
    (hop : op args = .ok r) :
    memoizedCall H options key op args now dur st =
      (.ok r,
       (if (saveContent H (serializeData r) (inferMimeType r) st).2.callRows.any
            (fun row => row.argsHash == memoKey H options key args) then
          { (saveContent H (serializeData r) (inferMimeType r) st).2 with
              callRows :=
                (saveContent H (serializeData r) (inferMimeType r) st).2.callRows.map
                  (fun row =>
                    if row.argsHash == memoKey H options key args then
                      { row with
                          contentHash :=
                            (saveContent H (serializeData r) (inferMimeType r) st).1,
                          lastAccessed := now, fetchDurationMs := dur }
                    else row) }
        else
          { (saveContent H (serializeData r) (inferMimeType r) st).2 with
              callRows :=
                (saveContent H (serializeData r) (inferMimeType r) st).2.callRows ++
                  [⟨memoKey H options key args, memoFunctionName options key,
                    Json.stringify (.arr args),
                    (saveContent H (serializeData r) (inferMimeType r) st).1,
                    now, now, dur⟩] }),
       true) := by
  simp only [memoKey] at hmiss
  unfold memoizedCall
  simp [hic, hmiss, hop, memoKey]

/-- C9: two argument objects that are semantically equal but built with
different key insertion order serialize differently; any pair of argument
values that serialize differently fingerprints differently (collision-free
digest), and so the second call misses the cache rather than hitting the
first call's entry. -/
theorem C9_insertion_order_changes_fingerprint
    (H : Bytes → String) (hH : Function.Injective H) :
    (∃ v w : JSValue, sameFieldsUpToOrder v w ∧ v ≠ w ∧
        Json.stringify v ≠ Json.stringify w) ∧
    (∀ (name : String) (v w : JSValue),
        Json.stringify (JSValue.arr [v]) ≠ Json.stringify (JSValue.arr [w]) →
        hashArgs H name [v] ≠ hashArgs H name [w]) ∧
    (∀ (options : MemoizeOptions) (key : String)
        (op : List JSValue → Except String JSData) (v w : JSValue) (r : JSData)
        (now dur now2 dur2 : Nat) (st : SysState),
        options.ignoreCache = false →
        Json.stringify (JSValue.arr [v]) ≠ Json.stringify (JSValue.arr [w]) →
        findCall st.callRows (memoKey H options key [v]) = none →
        findCall st.callRows (memoKey H options key [w]) = none →
        op [v] = .ok r →
        (memoizedCall H options key op [w] now2 dur2
            (memoizedCall H options key op [v] now dur st).2.1).2.2 = true) := by
  have hkeydiff : ∀ (name : String) (v w : JSValue),
      Json.stringify (JSValue.arr [v]) ≠ Json.stringify (JSValue.arr [w]) →
      hashArgs H name [v] ≠ hashArgs H name [w] := by
    intro name v w hs heq
    apply hs
    unfold hashArgs at heq
    have h1 := strToBytes_inj (hH heq)
    have h2 : (name ++ ":") ++ Json.stringify (JSValue.arr [v])
        = (name ++ ":") ++ Json.stringify (JSValue.arr [w]) := by
      simpa [String.append_assoc] using h1
    exact string_append_left_inj (name ++ ":") _ _ h2
  refine ⟨⟨.obj [("a", .num 1), ("b", .num 2)], .obj [("b", .num 2), ("a", .num 1)],
      ?_, by decide, by decide⟩, hkeydiff, ?_⟩
  · unfold sameFieldsUpToOrder
    exact List.Perm.swap _ _ _
  · intro options key op v w r now dur now2 dur2 st hic hs hv hw hop
    rw [memoizedCall_miss_eq H options key op [v] now dur st r hic hv hop]
    have hanyf : (saveContent H (serializeData r) (inferMimeType r) st).2.callRows.any
        (fun row => row.argsHash == memoKey H options key [v]) = false := by
      rw [saveContent_callRows]
      rw [List.any_eq_false]
      intro x hx
      have := (findCall_none_iff st.callRows (memoKey H options key [v])).mp hv x hx
      simpa using this
    simp only [hanyf, Bool.false_eq_true, if_false]
    have hw2 : findCall
        ((saveContent H (serializeData r) (inferMimeType r) st).2.callRows ++
          [⟨memoKey H options key [v], memoFunctionName options key,
            Json.stringify (.arr [v]),
            (saveContent H (serializeData r) (inferMimeType r) st).1, now, now, dur⟩])
        (hashArgs H (memoFunctionName options key) [w]) = none := by
      unfold findCall
      rw [List.find?_append]
      have hfirstpart : (saveContent H (serializeData r) (inferMimeType r) st).2.callRows.find?
          (fun row => row.argsHash == hashArgs H (memoFunctionName options key) [w]) = none := by
        rw [saveContent_callRows]
        exact hw
      rw [hfirstpart]
      simp only [Option.none_or]
      rw [List.find?_cons_of_neg]
      · rfl
      · simp only [beq_iff_eq]
        exact hkeydiff (memoFunctionName options key) v w hs
    unfold memoizedCall
    cases hop2 : op [w] with
    | error e => simp [hic, hw2, hop2]
    | ok r2 => simp [hic, hw2, hop2]

/-- `\x7b"a":1,"b":2\x7d` built in the order `a`, `b`. -/
def exObjA : JSValue := .obj [("a", .num 1), ("b", .num 2)]

/-- The same object built in the order `b`, `a`. -/
def exObjB : JSValue := .obj [("b", .num 2), ("a", .num 1)]

/-- Witness for C9: the two field orders of the same object serialize
differently, fingerprint differently, and the second call is a miss. -/
theorem C9_insertion_order_witness :
    sameFieldsUpToOrder exObjA exObjB ∧
    Json.stringify exObjA ≠ Json.stringify exObjB ∧
    hashArgs Hc "unknown.f" [exObjA] ≠ hashArgs Hc "unknown.f" [exObjB] ∧
    (memoizedCall Hc ⟨none, false⟩ "f" (fun _ => .ok (.str "r")) [exObjB] 1 1
        (memoizedCall Hc ⟨none, false⟩ "f" (fun _ => .ok (.str "r")) [exObjA] 0 0
          SysState.empty).2.1).2.2 = true := by
  refine ⟨?_, by decide, ?_, ?_⟩
  · unfold exObjA exObjB sameFieldsUpToOrder
    exact List.Perm.swap _ _ _
  · exact (C9_insertion_order_changes_fingerprint Hc Hc_inj).2.1 "unknown.f"
      exObjA exObjB (by decide)
  · exact (C9_insertion_order_changes_fingerprint Hc Hc_inj).2.2 ⟨none, false⟩ "f"
      (fun _ => .ok (.str "r")) exObjA exObjB (.str "r") 0 0 1 1 SysState.empty rfl
      (by decide) rfl rfl rfl

/-- A memoized operation returning the structured value `\x7b"a":1\x7d`. -/
def c1Op : List JSValue → Except String JSData :=
  fun _ => .ok (.value (.obj [("a", .num 1)]))

/-- First call of `c1Op` (a miss that caches the serialized object). -/
def c1First := memoizedCall Hc ⟨none, false⟩ "f" c1Op [] 0 0 SysState.empty

/-- Second, identical call (a hit on the first call's Ledger row). -/
def c1Second := memoizedCall Hc ⟨none, false⟩ "f" c1Op [] 1 1 c1First.2.1

set_option maxRecDepth 8000 in
/-- C1 (divergence): the miss returns the live structured object, but the
hit returns the raw serialized bytes instead of the rehydrated structure —
the hit path tests `contentHash.endsWith(".json")` against the bare content
digest, which contains no dot, so the JSON-rehydrate branch never fires. -/
theorem C1_structured_hit_returns_raw_bytes :
    c1First.1 = .ok (.value (.obj [("a", .num 1)])) ∧
    c1Second.2.2 = false ∧
    c1Second.1 = .ok (.buffer (strToBytes "\x7b\"a\":1\x7d")) ∧
    c1Second.1 ≠ c1First.1 ∧
    c1First.2.1.callRows.all
      (fun row => !(strEndsWith row.contentHash ".json")) = true := by
  decide
